import Mathlib

/-!
Verification development for the Secure-File-share repository
(single source file src/src/App.tsx).

The component App keeps these pieces of React state:
  fileShares   : Map<string, FileShare>   (the share registry)
  view         : "upload" | "download"
  uploadedCode, downloadCode, error : string
  copied, isDragging : boolean

and the operations embedded below:
  generateCode     : do-while loop drawing Math.floor(1000 + Math.random() * 9000)
                     until the decimal string is not a key of fileShares
  handleFileUpload : guards against a null file, generates a code, creates an
                     object URL, inserts the share, publishes the code
  handleDownload   : exact-match lookup of downloadCode; on a miss sets the
                     error message, on a hit triggers the browser download,
                     clears error and downloadCode
  the code input onChange : strips non-digits and truncates to 4 characters
  the Download File button : disabled while downloadCode.length is not 4
  the remaining button handlers (tab switches, Upload Another File, copy)

Rendering, styling and drag plumbing carry no registry logic and are modelled
only through the state fields they touch.
-/

namespace FileShareApp

/-- Embeds the browser File object as the core uses it: a declared name and a
byte size. The binary content is irrelevant to every registry operation. -/
structure File where
  name : String
  size : Nat
deriving DecidableEq, Repr

/-- The FileShare interface of App.tsx: code, file and object URL. -/
structure FileShare where
  code : String
  file : File
  url : String
deriving DecidableEq, Repr

/-- The share registry: the JS Map from code strings to FileShare entries,
embedded as an association list (first binding of a key wins, as in Map). -/
abbrev Registry : Type := List (String × FileShare)

/-- Embeds Map.prototype.get: exact-match lookup of a key. -/
def mapGet (r : Registry) (code : String) : Option FileShare :=
  match r with
  | [] => none
  | (k, v) :: t => if k = code then some v else mapGet t code

/-- Embeds Map.prototype.set: overwrite the binding of an existing key in
place, otherwise append a fresh binding. -/
def mapPut (r : Registry) (code : String) (v : FileShare) : Registry :=
  match r with
  | [] => [(code, v)]
  | (k, w) :: t => if k = code then (k, v) :: t else (k, w) :: mapPut t code v

/-- Embeds Map.prototype.has, used by the generateCode loop condition. -/
def hasCode (r : Registry) (code : String) : Bool :=
  (mapGet r code).isSome

/-- The keys of the registry, in order. -/
def mapKeys (r : Registry) : List String :=
  r.map Prod.fst

/-- The number of live entries (Map.prototype.size). -/
def mapSize (r : Registry) : Nat :=
  r.length

/-- Embeds Number.prototype.toString for a nonnegative integer: peel decimal
digits from the least significant end, with fuel bounding the recursion
exactly as the runtime conversion is bounded. -/
def natToDigitsAux : Nat → Nat → List Char → List Char
  | 0, _, acc => acc
  | fuel + 1, n, acc =>
    if n / 10 = 0 then Nat.digitChar (n % 10) :: acc
    else natToDigitsAux fuel (n / 10) (Nat.digitChar (n % 10) :: acc)

/-- Decimal string of a nonnegative integer, the codomain of code.toString()
in generateCode. -/
def natToString (n : Nat) : String :=
  ⟨natToDigitsAux (n + 1) n []⟩

/-- One draw of the loop body: Math.floor(1000 + Math.random() * 9000),
where rand i is the value returned by the i-th call of Math.random(),
a rational in the interval from 0 inclusive to 1 exclusive. -/
def draw (rand : Nat → ℚ) (i : Nat) : Nat :=
  (((1000 : ℚ) + rand i * 9000).floor).toNat

/-- Embeds generateCode of App.tsx: draw, convert to a decimal string, retry
while the string is a key of the registry. The do-while loop is given fuel;
none means the loop did not finish within that many iterations. -/
def generateCode (shares : Registry) (rand : Nat → ℚ) : Nat → Nat → Option String
  | 0, _ => none
  | fuel + 1, i =>
    let code := natToString (draw rand i)
    if hasCode shares code then generateCode shares rand fuel (i + 1) else some code

/-- The two values of the view state. -/
inductive View where
  | upload
  | download
deriving DecidableEq, Repr

/-- The React state of the App component. -/
structure AppState where
  view : View
  fileShares : Registry
  uploadedCode : String
  downloadCode : String
  error : String
  copied : Bool
  isDragging : Bool
deriving DecidableEq, Repr

/-- The initial state of every useState hook in App. -/
def initState : AppState :=
  { view := .upload, fileShares := [], uploadedCode := "", downloadCode := "",
    error := "", copied := false, isDragging := false }

/-- The one error message the component ever displays. -/
def notFoundMsg : String :=
  "Invalid code. Please check and try again."

/-- The side effect of a successful download: the browser is told to save the
content behind this object URL under this file name. -/
structure DownloadAction where
  url : String
  filename : String
deriving DecidableEq, Repr

/-- Embeds handleDownload of App.tsx: exact lookup of downloadCode; a miss
sets the error message and returns early; a hit triggers the download action,
clears the error and clears the entered code. -/
def handleDownload (s : AppState) : AppState × Option DownloadAction :=
  match mapGet s.fileShares s.downloadCode with
  | none => ({ s with error := notFoundMsg }, none)
  | some share =>
    ({ s with error := "", downloadCode := "" }, some ⟨share.url, share.file.name⟩)

/-- Embeds handleFileUpload of App.tsx, with the null-file guard folded in
(handleFileSelect and handleDrop forward an optional file). mkUrl stands for
URL.createObjectURL. The outer none means generateCode never finished. -/
def handleFileUpload (mkUrl : File → String) (s : AppState) (file : Option File)
    (rand : Nat → ℚ) (fuel : Nat) : Option AppState :=
  match file with
  | none => some s
  | some f =>
    match generateCode s.fileShares rand fuel 0 with
    | none => none
    | some code =>
      let newShare : FileShare := ⟨code, f, mkUrl f⟩
      some { s with fileShares := mapPut s.fileShares code newShare,
                    uploadedCode := code, error := "" }

/-- Embeds the onChange handler of the code input: strip every non-digit and
keep at most the first 4 characters. -/
def sanitizeCodeInput (raw : String) : String :=
  ⟨(raw.data.filter Char.isDigit).take 4⟩

/-- The Download File button is disabled while the entered code does not have
length exactly 4. -/
def downloadDisabled (s : AppState) : Bool :=
  s.downloadCode.length != 4

/-- Every user action of the component. Upload actions carry the file the
environment delivered (none when no file was picked) and the stream of
Math.random values with the fuel for the generation loop. -/
inductive Event where
  | selectFile (file : Option File) (rand : Nat → ℚ) (fuel : Nat)
  | dropFile (file : Option File) (rand : Nat → ℚ) (fuel : Nat)
  | dragOver
  | dragLeave
  | clickDownload
  | clickUploadAnother
  | clickUploadTab
  | clickDownloadTab
  | clickCopy
  | copyTimeout
  | editCode (raw : String)

/-- One user action applied to a state. The first component of the result is
the next state; the second records the code submitted to the registry lookup
(mapGet) when the action performed one. A disabled button fires no handler.
The outer none means the generation loop inside an upload never finished. -/
def step (mkUrl : File → String) (s : AppState) :
    Event → Option (AppState × Option String)
  | .selectFile f rand fuel =>
    (handleFileUpload mkUrl s f rand fuel).map (fun s' => (s', none))
  | .dropFile f rand fuel =>
    (handleFileUpload mkUrl { s with isDragging := false } f rand fuel).map
      (fun s' => (s', none))
  | .dragOver => some ({ s with isDragging := true }, none)
  | .dragLeave => some ({ s with isDragging := false }, none)
  | .clickDownload =>
    if downloadDisabled s then some (s, none)
    else some ((handleDownload s).1, some s.downloadCode)
  | .clickUploadAnother => some ({ s with uploadedCode := "" }, none)
  | .clickUploadTab =>
    some ({ s with view := .upload, error := "", uploadedCode := "" }, none)
  | .clickDownloadTab =>
    some ({ s with view := .download, error := "", downloadCode := "" }, none)
  | .clickCopy => some ({ s with copied := true }, none)
  | .copyTimeout => some ({ s with copied := false }, none)
  | .editCode raw =>
    some ({ s with downloadCode := sanitizeCodeInput raw, error := "" }, none)

/-- The states the component can be in: the initial state and everything a
sequence of user actions can produce from it. -/
inductive Reachable (mkUrl : File → String) : AppState → Prop where
  | init : Reachable mkUrl initState
  | next {s s' : AppState} {e : Event} {lk : Option String} :
      Reachable mkUrl s → step mkUrl s e = some (s', lk) → Reachable mkUrl s'

/-- Run a list of user actions in order; none as soon as one diverges. -/
def runEvents (mkUrl : File → String) (s : AppState) : List Event → Option AppState
  | [] => some s
  | e :: es =>
    match step mkUrl s e with
    | none => none
    | some (s', _) => runEvents mkUrl s' es

/-- Run a sequence of uploads, each with its own file, random stream and fuel,
collecting the assigned codes in order. none as soon as one upload fails to
finish. -/
def runUploads (mkUrl : File → String) (s : AppState) :
    List (File × (Nat → ℚ) × Nat) → Option (AppState × List String)
  | [] => some (s, [])
  | (f, rand, fuel) :: rest =>
    match handleFileUpload mkUrl s (some f) rand fuel with
    | none => none
    | some s' =>
      match runUploads mkUrl s' rest with
      | none => none
      | some (s'', codes) => some (s'', s'.uploadedCode :: codes)

/-- A concrete object URL provider for the concrete check theorems. -/
def demoUrl : File → String := fun _ => "u"

/-- A concrete uploaded file for the concrete check theorems. -/
def demoFile : File := ⟨"report.pdf", 2048⟩

/-- A second concrete uploaded file for the concrete check theorems. -/
def demoFile2 : File := ⟨"notes.txt", 512⟩

/-- A Math.random stream that always returns 0, so the draw is 1000. -/
def demoRand : Nat → ℚ := fun _ => 0

/-- A Math.random stream that always returns 1/9000, so the draw is 1001. -/
def demoRand2 : Nat → ℚ := fun _ => (1 : ℚ) / 9000

/-- The share entry created by uploading demoFile under code 1000. -/
def demoShare : FileShare := ⟨"1000", demoFile, "u"⟩

/-- The share entry created by uploading demoFile2 under code 1001. -/
def demoShare2 : FileShare := ⟨"1001", demoFile2, "u"⟩

/-- The state after uploading demoFile from the initial state. -/
def demoUploaded : AppState :=
  { initState with fileShares := [("1000", demoShare)], uploadedCode := "1000" }

/-- The state after uploading demoFile and then demoFile2 from the initial
state. -/
def demoUploaded2 : AppState :=
  { initState with
    fileShares := [("1000", demoShare), ("1001", demoShare2)]
    uploadedCode := "1001" }

/-! Helper lemmas about the embedded operations. -/

theorem ratFloor_eq_intFloor (q : ℚ) : q.floor = ⌊q⌋ :=
  (Rat.floor_def' q).trans Rat.floor_def.symm

theorem draw_mem (rand : Nat → ℚ) (i : Nat) (h0 : 0 ≤ rand i) (h1 : rand i < 1) :
    1000 ≤ draw rand i ∧ draw rand i ≤ 9999 := by
  unfold draw
  rw [ratFloor_eq_intFloor]
  have hlo : (1000 : ℤ) ≤ ⌊(1000 : ℚ) + rand i * 9000⌋ := by
    rw [Int.le_floor]
    push_cast
    nlinarith
  have hhi : ⌊(1000 : ℚ) + rand i * 9000⌋ < 10000 := by
    rw [Int.floor_lt]
    push_cast
    nlinarith
  omega

theorem digitChar_isDigit (d : Nat) (h : d < 10) : (Nat.digitChar d).isDigit = true := by
  interval_cases d <;> decide

theorem natToDigitsAux_length :
    ∀ (fuel n : Nat) (acc : List Char), n < fuel →
      (natToDigitsAux fuel n acc).length = Nat.log 10 n + 1 + acc.length := by
  intro fuel
  induction fuel with
  | zero => intro n acc h; omega
  | succ fuel ih =>
    intro n acc h
    by_cases h10 : n / 10 = 0
    · have hlt : n < 10 := by omega
      simp only [natToDigitsAux, if_pos h10, List.length_cons, Nat.log_of_lt hlt]
      omega
    · have hge : 10 ≤ n := by omega
      have hrec : n / 10 < fuel := by omega
      simp only [natToDigitsAux, if_neg h10]
      rw [ih (n / 10) (Nat.digitChar (n % 10) :: acc) hrec,
        Nat.log_of_one_lt_of_le (by norm_num) hge]
      simp only [List.length_cons]
      omega

theorem natToDigitsAux_all_digits :
    ∀ (fuel n : Nat) (acc : List Char), (∀ c ∈ acc, c.isDigit = true) →
      ∀ c ∈ natToDigitsAux fuel n acc, c.isDigit = true := by
  intro fuel
  induction fuel with
  | zero => intro n acc hacc; exact hacc
  | succ fuel ih =>
    intro n acc hacc
    have hd : (Nat.digitChar (n % 10)).isDigit = true :=
      digitChar_isDigit (n % 10) (Nat.mod_lt n (by omega))
    have hacc' : ∀ c ∈ Nat.digitChar (n % 10) :: acc, c.isDigit = true := by
      intro c hc
      rcases List.mem_cons.mp hc with h | h
      · exact h ▸ hd
      · exact hacc c h
    by_cases h10 : n / 10 = 0
    · simpa only [natToDigitsAux, if_pos h10] using hacc'
    · simpa only [natToDigitsAux, if_neg h10] using
        ih (n / 10) (Nat.digitChar (n % 10) :: acc) hacc'

theorem natToString_length_four (n : Nat) (h1 : 1000 ≤ n) (h2 : n ≤ 9999) :
    (natToString n).length = 4 := by
  have hlog : Nat.log 10 n = 3 :=
    Nat.log_eq_of_pow_le_of_lt_pow (by norm_num; omega) (by norm_num; omega)
  show (natToDigitsAux (n + 1) n []).length = 4
  rw [natToDigitsAux_length (n + 1) n [] (by omega), hlog]
  rfl

theorem natToString_all_digits (n : Nat) :
    ∀ c ∈ (natToString n).data, c.isDigit = true :=
  natToDigitsAux_all_digits (n + 1) n [] (by intro c hc; cases hc)

theorem mapGet_mapPut_self (r : Registry) (code : String) (v : FileShare) :
    mapGet (mapPut r code v) code = some v := by
  induction r with
  | nil => simp [mapPut, mapGet]
  | cons kv t ih =>
    obtain ⟨k, w⟩ := kv
    by_cases hk : k = code
    · simp [mapPut, mapGet, hk]
    · simp [mapPut, mapGet, hk, ih]

theorem mapGet_mapPut_ne (r : Registry) (code code' : String) (v : FileShare)
    (h : code' ≠ code) : mapGet (mapPut r code v) code' = mapGet r code' := by
  induction r with
  | nil => simp [mapPut, mapGet, Ne.symm h]
  | cons kv t ih =>
    obtain ⟨k, w⟩ := kv
    by_cases hk : k = code
    · subst hk
      simp [mapPut, mapGet, Ne.symm h]
    · by_cases hk' : k = code'
      · simp [mapPut, mapGet, hk, hk', h]
      · simp [mapPut, mapGet, hk, hk', ih]

theorem mapPut_length_of_fresh (r : Registry) (code : String) (v : FileShare)
    (h : hasCode r code = false) : (mapPut r code v).length = r.length + 1 := by
  induction r with
  | nil => rfl
  | cons kv t ih =>
    obtain ⟨k, w⟩ := kv
    simp only [hasCode, mapGet] at h
    by_cases hk : k = code
    · simp [hk] at h
    · rw [show hasCode t code = false by
        simpa only [hasCode, if_neg hk] using h] at ih
      simp [mapPut, hk, ih (by rfl)]

theorem mapGet_none_iff_not_mem_keys (r : Registry) (code : String) :
    mapGet r code = none ↔ code ∉ mapKeys r := by
  induction r with
  | nil => simp [mapGet, mapKeys]
  | cons kv t ih =>
    obtain ⟨k, w⟩ := kv
    have hkeys : mapKeys ((k, w) :: t) = k :: mapKeys t := rfl
    by_cases hk : k = code
    · subst hk
      rw [hkeys]
      simp [mapGet]
    · rw [hkeys]
      simp only [mapGet, if_neg hk, List.mem_cons, not_or, ih]
      exact ⟨fun h => ⟨fun hc => hk hc.symm, h⟩, fun h => h.2⟩

theorem hasCode_mapPut_ne (r : Registry) (code code' : String) (v : FileShare)
    (h : code' ≠ code) : hasCode (mapPut r code v) code' = hasCode r code' := by
  unfold hasCode
  rw [mapGet_mapPut_ne r code code' v h]

theorem mapKeys_mapPut_fresh (r : Registry) (code : String) (v : FileShare)
    (h : hasCode r code = false) : mapKeys (mapPut r code v) = mapKeys r ++ [code] := by
  induction r with
  | nil => rfl
  | cons kv t ih =>
    obtain ⟨k, w⟩ := kv
    simp only [hasCode, mapGet] at h
    by_cases hk : k = code
    · simp [hk] at h
    · rw [if_neg hk] at h
      have hih := ih h
      simp only [mapKeys] at hih ⊢
      simp [mapPut, hk, hih]

theorem generateCode_fresh (shares : Registry) (rand : Nat → ℚ) :
    ∀ (fuel i : Nat) (c : String), generateCode shares rand fuel i = some c →
      hasCode shares c = false := by
  intro fuel
  induction fuel with
  | zero => intro i c h; cases h
  | succ fuel ih =>
    intro i c h
    simp only [generateCode] at h
    by_cases hc : hasCode shares (natToString (draw rand i)) = true
    · rw [if_pos hc] at h
      exact ih (i + 1) c h
    · rw [if_neg hc] at h
      cases h
      exact Bool.not_eq_true _ ▸ hc

theorem generateCode_shape (shares : Registry) (rand : Nat → ℚ) :
    ∀ (fuel i : Nat) (c : String), generateCode shares rand fuel i = some c →
      ∃ j, c = natToString (draw rand j) := by
  intro fuel
  induction fuel with
  | zero => intro i c h; cases h
  | succ fuel ih =>
    intro i c h
    simp only [generateCode] at h
    by_cases hc : hasCode shares (natToString (draw rand i)) = true
    · rw [if_pos hc] at h
      exact ih (i + 1) c h
    · rw [if_neg hc] at h
      cases h
      exact ⟨i, rfl⟩

theorem generateCode_none_of_full (shares : Registry) (rand : Nat → ℚ)
    (hfull : ∀ n, 1000 ≤ n → n ≤ 9999 → hasCode shares (natToString n) = true)
    (hrand : ∀ j, 0 ≤ rand j ∧ rand j < 1) :
    ∀ (fuel i : Nat), generateCode shares rand fuel i = none := by
  intro fuel
  induction fuel with
  | zero => intro i; rfl
  | succ fuel ih =>
    intro i
    have hmem := draw_mem rand i (hrand i).1 (hrand i).2
    simp only [generateCode, if_pos (hfull (draw rand i) hmem.1 hmem.2)]
    exact ih (i + 1)

theorem generateCode_some_of_free (shares : Registry) (n : Nat)
    (h1 : 1000 ≤ n) (h2 : n ≤ 9999) (hfree : hasCode shares (natToString n) = false) :
    generateCode shares (fun _ => ((n : ℚ) - 1000) / 9000) 1 0 = some (natToString n) := by
  have hq : (1000 : ℚ) + ((n : ℚ) - 1000) / 9000 * 9000 = (n : ℚ) := by
    rw [div_mul_cancel₀ _ (by norm_num : (9000 : ℚ) ≠ 0)]
    ring
  have hdraw : draw (fun _ => ((n : ℚ) - 1000) / 9000) 0 = n := by
    unfold draw
    rw [hq, ratFloor_eq_intFloor, Int.floor_natCast, Int.toNat_natCast]
  simp only [generateCode, hdraw, hfree, Bool.false_eq_true, if_false]

theorem handleFileUpload_some (mkUrl : File → String) (s : AppState) (f : File)
    (rand : Nat → ℚ) (fuel : Nat) (s' : AppState)
    (h : handleFileUpload mkUrl s (some f) rand fuel = some s') :
    ∃ code, generateCode s.fileShares rand fuel 0 = some code ∧
      hasCode s.fileShares code = false ∧
      s' = { s with fileShares := mapPut s.fileShares code ⟨code, f, mkUrl f⟩,
                    uploadedCode := code, error := "" } := by
  simp only [handleFileUpload] at h
  cases hg : generateCode s.fileShares rand fuel 0 with
  | none => rw [hg] at h; cases h
  | some code =>
    rw [hg] at h
    exact ⟨code, rfl, generateCode_fresh s.fileShares rand fuel 0 code hg,
      (Option.some.inj h).symm⟩

theorem hasCode_false_iff (r : Registry) (code : String) :
    hasCode r code = false ↔ code ∉ mapKeys r := by
  rw [← mapGet_none_iff_not_mem_keys]
  unfold hasCode
  cases mapGet r code <;> simp

theorem handleDownload_fileShares (s : AppState) :
    (handleDownload s).1.fileShares = s.fileShares := by
  unfold handleDownload
  cases mapGet s.fileShares s.downloadCode <;> rfl

theorem handleDownload_miss (s : AppState)
    (h : mapGet s.fileShares s.downloadCode = none) :
    handleDownload s = ({ s with error := notFoundMsg }, none) := by
  unfold handleDownload
  rw [h]

theorem handleDownload_hit (s : AppState) (share : FileShare)
    (h : mapGet s.fileShares s.downloadCode = some share) :
    handleDownload s = ({ s with error := "", downloadCode := "" },
      some ⟨share.url, share.file.name⟩) := by
  unfold handleDownload
  rw [h]

theorem handleFileUpload_registry (mkUrl : File → String) (s : AppState)
    (file : Option File) (rand : Nat → ℚ) (fuel : Nat) (s' : AppState)
    (h : handleFileUpload mkUrl s file rand fuel = some s') :
    (∀ code sh, mapGet s.fileShares code = some sh →
      mapGet s'.fileShares code = some sh) ∧
    mapSize s.fileShares ≤ mapSize s'.fileShares := by
  cases file with
  | none =>
    cases Option.some.inj h
    exact ⟨fun _ _ hh => hh, le_rfl⟩
  | some f =>
    obtain ⟨code, hgen, hfresh, rfl⟩ := handleFileUpload_some mkUrl s f rand fuel s' h
    constructor
    · intro c sh hget
      have hne : c ≠ code := by
        intro hEq
        subst hEq
        unfold hasCode at hfresh
        rw [hget] at hfresh
        cases hfresh
      show mapGet (mapPut s.fileShares code ⟨code, f, mkUrl f⟩) c = some sh
      rw [mapGet_mapPut_ne s.fileShares code c _ hne]
      exact hget
    · show mapSize s.fileShares ≤ mapSize (mapPut s.fileShares code ⟨code, f, mkUrl f⟩)
      unfold mapSize
      rw [mapPut_length_of_fresh s.fileShares code _ hfresh]
      omega

theorem step_registry (mkUrl : File → String) (s : AppState) (e : Event)
    (s' : AppState) (lk : Option String) (h : step mkUrl s e = some (s', lk)) :
    (∀ code sh, mapGet s.fileShares code = some sh →
      mapGet s'.fileShares code = some sh) ∧
    mapSize s.fileShares ≤ mapSize s'.fileShares := by
  cases e with
  | selectFile f rand fuel =>
    simp only [step, Option.map_eq_some'] at h
    obtain ⟨s1, hs1, hpair⟩ := h
    obtain ⟨rfl, rfl⟩ : s1 = s' ∧ (none : Option String) = lk := by
      simpa [Prod.mk.injEq] using hpair
    exact handleFileUpload_registry mkUrl s f rand fuel _ hs1
  | dropFile f rand fuel =>
    simp only [step, Option.map_eq_some'] at h
    obtain ⟨s1, hs1, hpair⟩ := h
    obtain ⟨rfl, rfl⟩ : s1 = s' ∧ (none : Option String) = lk := by
      simpa [Prod.mk.injEq] using hpair
    exact handleFileUpload_registry mkUrl { s with isDragging := false } f rand fuel _ hs1
  | dragOver =>
    simp only [step, Option.some.injEq, Prod.mk.injEq] at h
    obtain ⟨rfl, rfl⟩ := h
    exact ⟨fun _ _ hh => hh, le_rfl⟩
  | dragLeave =>
    simp only [step, Option.some.injEq, Prod.mk.injEq] at h
    obtain ⟨rfl, rfl⟩ := h
    exact ⟨fun _ _ hh => hh, le_rfl⟩
  | clickDownload =>
    by_cases hd : downloadDisabled s = true
    · simp only [step, if_pos hd, Option.some.injEq, Prod.mk.injEq] at h
      obtain ⟨rfl, rfl⟩ := h
      exact ⟨fun _ _ hh => hh, le_rfl⟩
    · simp only [step, if_neg hd, Option.some.injEq, Prod.mk.injEq] at h
      obtain ⟨rfl, rfl⟩ := h
      rw [handleDownload_fileShares]
      exact ⟨fun _ _ hh => hh, le_rfl⟩
  | clickUploadAnother =>
    simp only [step, Option.some.injEq, Prod.mk.injEq] at h
    obtain ⟨rfl, rfl⟩ := h
    exact ⟨fun _ _ hh => hh, le_rfl⟩
  | clickUploadTab =>
    simp only [step, Option.some.injEq, Prod.mk.injEq] at h
    obtain ⟨rfl, rfl⟩ := h
    exact ⟨fun _ _ hh => hh, le_rfl⟩
  | clickDownloadTab =>
    simp only [step, Option.some.injEq, Prod.mk.injEq] at h
    obtain ⟨rfl, rfl⟩ := h
    exact ⟨fun _ _ hh => hh, le_rfl⟩
  | clickCopy =>
    simp only [step, Option.some.injEq, Prod.mk.injEq] at h
    obtain ⟨rfl, rfl⟩ := h
    exact ⟨fun _ _ hh => hh, le_rfl⟩
  | copyTimeout =>
    simp only [step, Option.some.injEq, Prod.mk.injEq] at h
    obtain ⟨rfl, rfl⟩ := h
    exact ⟨fun _ _ hh => hh, le_rfl⟩
  | editCode raw =>
    simp only [step, Option.some.injEq, Prod.mk.injEq] at h
    obtain ⟨rfl, rfl⟩ := h
    exact ⟨fun _ _ hh => hh, le_rfl⟩

theorem runEvents_preserves_entries (mkUrl : File → String) :
    ∀ (es : List Event) (s s'' : AppState), runEvents mkUrl s es = some s'' →
      ∀ code sh, mapGet s.fileShares code = some sh →
        mapGet s''.fileShares code = some sh := by
  intro es
  induction es with
  | nil =>
    intro s s'' h code sh hget
    cases Option.some.inj h
    exact hget
  | cons e rest ih =>
    intro s s'' h code sh hget
    simp only [runEvents] at h
    cases hstep : step mkUrl s e with
    | none => rw [hstep] at h; cases h
    | some pr =>
      obtain ⟨s1, lk⟩ := pr
      rw [hstep] at h
      exact ih s1 s'' h code sh ((step_registry mkUrl s e s1 lk hstep).1 code sh hget)

theorem sanitizeCodeInput_digits (raw : String) :
    ∀ c ∈ (sanitizeCodeInput raw).data, c.isDigit = true := by
  intro c hc
  have hmem : c ∈ raw.data.filter Char.isDigit := List.take_subset _ _ hc
  exact (List.mem_filter.mp hmem).2

theorem sanitizeCodeInput_length (raw : String) :
    (sanitizeCodeInput raw).length ≤ 4 := by
  show ((raw.data.filter Char.isDigit).take 4).length ≤ 4
  rw [List.length_take]
  omega

theorem handleFileUpload_fields (mkUrl : File → String) (s : AppState)
    (file : Option File) (rand : Nat → ℚ) (fuel : Nat) (s' : AppState)
    (h : handleFileUpload mkUrl s file rand fuel = some s') :
    s'.downloadCode = s.downloadCode ∧ (s'.error = s.error ∨ s'.error = "") := by
  cases file with
  | none =>
    cases Option.some.inj h
    exact ⟨rfl, Or.inl rfl⟩
  | some f =>
    obtain ⟨code, hg, hf, rfl⟩ := handleFileUpload_some mkUrl s f rand fuel s' h
    exact ⟨rfl, Or.inr rfl⟩

theorem reachable_inv (mkUrl : File → String) (s : AppState) (h : Reachable mkUrl s) :
    (∀ c ∈ s.downloadCode.data, c.isDigit = true) ∧ s.downloadCode.length ≤ 4 ∧
    (s.error = "" ∨ s.error = notFoundMsg) := by
  induction h with
  | init => exact ⟨(by intro c hc; cases hc), (show ("" : String).length ≤ 4 by decide), Or.inl rfl⟩
  | @next s0 s1 e lk hreach hstep ih =>
    obtain ⟨ihd, ihl, ihe⟩ := ih
    cases e with
    | selectFile f rand fuel =>
      simp only [step, Option.map_eq_some'] at hstep
      obtain ⟨s2, hs2, hpair⟩ := hstep
      obtain ⟨rfl, rfl⟩ : s2 = s1 ∧ (none : Option String) = lk := by
        simpa [Prod.mk.injEq] using hpair
      obtain ⟨hdc, herr⟩ := handleFileUpload_fields mkUrl s0 f rand fuel _ hs2
      rw [hdc]
      rcases herr with herr | herr <;> rw [herr]
      · exact ⟨ihd, ihl, ihe⟩
      · exact ⟨ihd, ihl, Or.inl rfl⟩
    | dropFile f rand fuel =>
      simp only [step, Option.map_eq_some'] at hstep
      obtain ⟨s2, hs2, hpair⟩ := hstep
      obtain ⟨rfl, rfl⟩ : s2 = s1 ∧ (none : Option String) = lk := by
        simpa [Prod.mk.injEq] using hpair
      obtain ⟨hdc, herr⟩ := handleFileUpload_fields mkUrl { s0 with isDragging := false }
        f rand fuel _ hs2
      rw [hdc]
      rcases herr with herr | herr <;> rw [herr]
      · exact ⟨ihd, ihl, ihe⟩
      · exact ⟨ihd, ihl, Or.inl rfl⟩
    | dragOver =>
      simp only [step, Option.some.injEq, Prod.mk.injEq] at hstep
      obtain ⟨rfl, rfl⟩ := hstep
      exact ⟨ihd, ihl, ihe⟩
    | dragLeave =>
      simp only [step, Option.some.injEq, Prod.mk.injEq] at hstep
      obtain ⟨rfl, rfl⟩ := hstep
      exact ⟨ihd, ihl, ihe⟩
    | clickDownload =>
      by_cases hd : downloadDisabled s0 = true
      · simp only [step, if_pos hd, Option.some.injEq, Prod.mk.injEq] at hstep
        obtain ⟨rfl, rfl⟩ := hstep
        exact ⟨ihd, ihl, ihe⟩
      · simp only [step, if_neg hd, Option.some.injEq, Prod.mk.injEq] at hstep
        obtain ⟨rfl, rfl⟩ := hstep
        cases hget : mapGet s0.fileShares s0.downloadCode with
        | none =>
          rw [handleDownload_miss s0 hget]
          exact ⟨ihd, ihl, Or.inr rfl⟩
        | some share =>
          rw [handleDownload_hit s0 share hget]
          exact ⟨(by intro c hc; cases hc), (show ("" : String).length ≤ 4 by decide), Or.inl rfl⟩
    | clickUploadAnother =>
      simp only [step, Option.some.injEq, Prod.mk.injEq] at hstep
      obtain ⟨rfl, rfl⟩ := hstep
      exact ⟨ihd, ihl, ihe⟩
    | clickUploadTab =>
      simp only [step, Option.some.injEq, Prod.mk.injEq] at hstep
      obtain ⟨rfl, rfl⟩ := hstep
      exact ⟨ihd, ihl, Or.inl rfl⟩
    | clickDownloadTab =>
      simp only [step, Option.some.injEq, Prod.mk.injEq] at hstep
      obtain ⟨rfl, rfl⟩ := hstep
      exact ⟨(by intro c hc; cases hc), (show ("" : String).length ≤ 4 by decide), Or.inl rfl⟩
    | clickCopy =>
      simp only [step, Option.some.injEq, Prod.mk.injEq] at hstep
      obtain ⟨rfl, rfl⟩ := hstep
      exact ⟨ihd, ihl, ihe⟩
    | copyTimeout =>
      simp only [step, Option.some.injEq, Prod.mk.injEq] at hstep
      obtain ⟨rfl, rfl⟩ := hstep
      exact ⟨ihd, ihl, ihe⟩
    | editCode raw =>
      simp only [step, Option.some.injEq, Prod.mk.injEq] at hstep
      obtain ⟨rfl, rfl⟩ := hstep
      exact ⟨sanitizeCodeInput_digits raw, sanitizeCodeInput_length raw, Or.inl rfl⟩

/-! The claims. Rational arithmetic is made semireducible so that the concrete
check theorems can evaluate the generation loop by decide. -/

attribute [local semireducible] Rat.add Rat.mul Rat.inv Rat.sub

/-- Claim C1: generateCode returns a code that is not a key of the registry at
call time, so the codes assigned by any sequence of successful uploads are
pairwise distinct, each fresh against the registry live when it is assigned,
and the registry keys stay duplicate-free, so no code is ever mapped to two
simultaneously-live entries. (Proved for every N, which covers N < 9000.) -/
theorem uploads_assign_pairwise_distinct_codes (mkUrl : File → String) :
    ∀ (us : List (File × (Nat → ℚ) × Nat)) (s s' : AppState) (codes : List String),
      runUploads mkUrl s us = some (s', codes) →
      codes.Nodup ∧ (∀ c ∈ codes, hasCode s.fileShares c = false) ∧
      ((mapKeys s.fileShares).Nodup → (mapKeys s'.fileShares).Nodup) := by
  intro us
  induction us with
  | nil =>
    intro s s' codes h
    simp only [runUploads, Option.some.injEq, Prod.mk.injEq] at h
    obtain ⟨rfl, rfl⟩ := h
    refine ⟨List.nodup_nil, ?_, fun hn => hn⟩
    intro c hc
    cases hc
  | cons u rest ih =>
    obtain ⟨f, rand, fuel⟩ := u
    intro s s' codes h
    cases hup : handleFileUpload mkUrl s (some f) rand fuel with
    | none =>
      simp only [runUploads, hup] at h
      exact Option.noConfusion h
    | some s1 =>
      cases hrest : runUploads mkUrl s1 rest with
      | none =>
        simp only [runUploads, hup, hrest] at h
        exact Option.noConfusion h
      | some pr =>
        obtain ⟨s2, codes2⟩ := pr
        simp only [runUploads, hup, hrest, Option.some.injEq, Prod.mk.injEq] at h
        obtain ⟨rfl, rfl⟩ := h
        obtain ⟨code, hgen, hfresh, hs1⟩ := handleFileUpload_some mkUrl s f rand fuel s1 hup
        obtain ⟨hnd2, hfr2, hkeys2⟩ := ih s1 s2 codes2 hrest
        have hup1 : s1.uploadedCode = code := by rw [hs1]
        have hshares1 : s1.fileShares = mapPut s.fileShares code ⟨code, f, mkUrl f⟩ := by
          rw [hs1]
        have hhas1 : hasCode s1.fileShares code = true := by
          rw [hshares1]
          unfold hasCode
          rw [mapGet_mapPut_self]
          rfl
        have hne : ∀ c ∈ codes2, c ≠ code := by
          intro c hc hEq
          subst hEq
          rw [hfr2 c hc] at hhas1
          cases hhas1
        have hfr2s : ∀ c ∈ codes2, hasCode s.fileShares c = false := by
          intro c hc
          have hthis := hfr2 c hc
          rw [hshares1, hasCode_mapPut_ne s.fileShares code c _ (hne c hc)] at hthis
          exact hthis
        refine ⟨?_, ?_, ?_⟩
        · rw [hup1]
          exact List.nodup_cons.mpr ⟨fun hmem => (hne code hmem) rfl, hnd2⟩
        · intro c hc
          rw [hup1] at hc
          rcases List.mem_cons.mp hc with rfl | hc2
          · exact hfresh
          · exact hfr2s c hc2
        · intro hn
          apply hkeys2
          rw [hshares1, mapKeys_mapPut_fresh s.fileShares code _ hfresh,
            List.nodup_append]
          refine ⟨hn, List.nodup_singleton code, ?_⟩
          intro a ha hb
          have haeq : a = code := List.mem_singleton.mp hb
          subst haeq
          exact (hasCode_false_iff s.fileShares a).mp hfresh ha

/-- Concrete check for C1: two successful uploads from the initial state
assign the distinct codes 1000 and 1001. -/
theorem uploads_assign_pairwise_distinct_codes_witness :
    (["1000", "1001"] : List String).Nodup ∧
    (∀ c ∈ (["1000", "1001"] : List String), hasCode initState.fileShares c = false) ∧
    ((mapKeys initState.fileShares).Nodup → (mapKeys demoUploaded2.fileShares).Nodup) :=
  uploads_assign_pairwise_distinct_codes demoUrl
    [(demoFile, demoRand, 1), (demoFile2, demoRand2, 1)] initState demoUploaded2
    ["1000", "1001"] (by decide)

/-- Claim C2: whenever the random source stays in the interval from 0
inclusive to 1 exclusive, every code generateCode returns is a string of
exactly 4 decimal digit characters and is the decimal representation of a
number in the interval 1000 to 9999, for every registry state. -/
theorem generateCode_format (shares : Registry) (rand : Nat → ℚ)
    (hrand : ∀ j, 0 ≤ rand j ∧ rand j < 1) (fuel i : Nat) (c : String)
    (h : generateCode shares rand fuel i = some c) :
    c.length = 4 ∧ (∀ ch ∈ c.data, ch.isDigit = true) ∧
    ∃ n, 1000 ≤ n ∧ n ≤ 9999 ∧ c = natToString n := by
  obtain ⟨j, rfl⟩ := generateCode_shape shares rand fuel i c h
  have hm := draw_mem rand j (hrand j).1 (hrand j).2
  exact ⟨natToString_length_four _ hm.1 hm.2, natToString_all_digits _,
    draw rand j, hm.1, hm.2, rfl⟩

/-- Concrete check for C2: the code generated on an empty registry with the
all-zero random stream is the 4-digit string 1000. -/
theorem generateCode_format_witness :
    ("1000" : String).length = 4 ∧ (∀ ch ∈ ("1000" : String).data, ch.isDigit = true) ∧
    ∃ n, 1000 ≤ n ∧ n ≤ 9999 ∧ ("1000" : String) = natToString n :=
  generateCode_format [] demoRand (fun _ => ⟨le_rfl, by norm_num [demoRand]⟩) 1 0
    "1000" (by decide)

/-- Claim C3: a successful upload stores an entry that an immediate lookup of
the published code returns, with the file name and byte size preserved
exactly, and the same lookup keeps returning that entry across every further
sequence of user actions (no later action ever overwrites it). -/
theorem upload_roundtrip (mkUrl : File → String) (s : AppState) (f : File)
    (rand : Nat → ℚ) (fuel : Nat) (s' : AppState)
    (h : handleFileUpload mkUrl s (some f) rand fuel = some s') :
    ∃ sh, mapGet s'.fileShares s'.uploadedCode = some sh ∧
      sh.file.name = f.name ∧ sh.file.size = f.size ∧
      ∀ (es : List Event) (s'' : AppState), runEvents mkUrl s' es = some s'' →
        mapGet s''.fileShares s'.uploadedCode = some sh := by
  obtain ⟨code, hgen, hfresh, rfl⟩ := handleFileUpload_some mkUrl s f rand fuel s' h
  refine ⟨⟨code, f, mkUrl f⟩, mapGet_mapPut_self s.fileShares code _, rfl, rfl, ?_⟩
  intro es s2 hrun
  exact runEvents_preserves_entries mkUrl es _ s2 hrun code _
    (mapGet_mapPut_self s.fileShares code _)

/-- Concrete check for C3: uploading demoFile publishes code 1000 and the
lookup of 1000 returns its entry, now and after any further actions. -/
theorem upload_roundtrip_witness :
    ∃ sh, mapGet demoUploaded.fileShares demoUploaded.uploadedCode = some sh ∧
      sh.file.name = demoFile.name ∧ sh.file.size = demoFile.size ∧
      ∀ (es : List Event) (s'' : AppState), runEvents demoUrl demoUploaded es = some s'' →
        mapGet s''.fileShares demoUploaded.uploadedCode = some sh :=
  upload_roundtrip demoUrl initState demoFile demoRand 1 demoUploaded (by decide)

/-- Claim C4: a code that is not a key of the registry misses: handleDownload
sets exactly the NotFound error message and triggers no download, and the
NotFound message is the only user-visible error: in every reachable state the
displayed error is either empty or that one message. -/
theorem get_miss_sets_notFound :
    (∀ (s : AppState) (code : String), code ∉ mapKeys s.fileShares →
      s.downloadCode = code →
      handleDownload s = ({ s with error := notFoundMsg }, none)) ∧
    (∀ (mkUrl : File → String) (s : AppState), Reachable mkUrl s →
      s.error = "" ∨ s.error = notFoundMsg) := by
  constructor
  · intro s code hmem hdc
    apply handleDownload_miss
    rw [hdc]
    exact (mapGet_none_iff_not_mem_keys s.fileShares code).mpr hmem
  · intro mkUrl s h
    exact (reachable_inv mkUrl s h).2.2

/-- Concrete check for C4: looking up 1234 in the empty registry sets the
NotFound message, and the initial state displays no other error. -/
theorem get_miss_sets_notFound_witness :
    handleDownload { initState with downloadCode := "1234" } =
      ({ initState with downloadCode := "1234", error := notFoundMsg }, none) ∧
    (initState.error = "" ∨ initState.error = notFoundMsg) :=
  ⟨get_miss_sets_notFound.1 { initState with downloadCode := "1234" } "1234"
      (by decide) rfl,
   get_miss_sets_notFound.2 demoUrl initState Reachable.init⟩

/-- Claim C5: putting two different file references under the same code, one
after the other, leaves the most recently stored reference as the result of a
lookup of that code: the put operation inserts or overwrites. -/
theorem put_overwrite_latest_wins (r : Registry) (code : String)
    (v1 v2 : FileShare) (hne : v1 ≠ v2) :
    mapGet (mapPut (mapPut r code v1) code v2) code = some v2 :=
  mapGet_mapPut_self (mapPut r code v1) code v2

/-- Concrete check for C5: storing demoShare then demoShare2 under code 1234
makes the lookup return demoShare2. -/
theorem put_overwrite_latest_wins_witness :
    mapGet (mapPut (mapPut [] "1234" demoShare) "1234" demoShare2) "1234" =
      some demoShare2 :=
  put_overwrite_latest_wins [] "1234" demoShare demoShare2 (by decide)

/-- Claim C6: in every reachable state the stored download code consists only
of decimal digits and has length at most 4, and any action that submits a
code to the registry lookup submits a code of length exactly 4 made of
digits, because the download button is disabled otherwise. -/
theorem download_code_constrained (mkUrl : File → String) (s : AppState)
    (h : Reachable mkUrl s) :
    ((∀ c ∈ s.downloadCode.data, c.isDigit = true) ∧ s.downloadCode.length ≤ 4) ∧
    (∀ (e : Event) (s' : AppState) (code : String),
      step mkUrl s e = some (s', some code) →
      code.length = 4 ∧ ∀ c ∈ code.data, c.isDigit = true) := by
  obtain ⟨hdig, hlen, _⟩ := reachable_inv mkUrl s h
  refine ⟨⟨hdig, hlen⟩, ?_⟩
  intro e s' code hstep
  cases e with
  | selectFile f rand fuel =>
    simp only [step, Option.map_eq_some'] at hstep
    obtain ⟨s1, _, hpair⟩ := hstep
    simp only [Prod.mk.injEq] at hpair
    exact absurd hpair.2 (by simp)
  | dropFile f rand fuel =>
    simp only [step, Option.map_eq_some'] at hstep
    obtain ⟨s1, _, hpair⟩ := hstep
    simp only [Prod.mk.injEq] at hpair
    exact absurd hpair.2 (by simp)
  | dragOver =>
    simp only [step, Option.some.injEq, Prod.mk.injEq] at hstep
    exact absurd hstep.2 (by simp)
  | dragLeave =>
    simp only [step, Option.some.injEq, Prod.mk.injEq] at hstep
    exact absurd hstep.2 (by simp)
  | clickDownload =>
    by_cases hdis : downloadDisabled s = true
    · simp only [step, if_pos hdis, Option.some.injEq, Prod.mk.injEq] at hstep
      exact absurd hstep.2 (by simp)
    · simp only [step, if_neg hdis, Option.some.injEq, Prod.mk.injEq] at hstep
      obtain rfl : s.downloadCode = code := hstep.2
      have hlen4 : s.downloadCode.length = 4 := by
        have hb : (s.downloadCode.length != 4) = false := by
          simpa [downloadDisabled] using hdis
        simpa using hb
      exact ⟨hlen4, hdig⟩
  | clickUploadAnother =>
    simp only [step, Option.some.injEq, Prod.mk.injEq] at hstep
    exact absurd hstep.2 (by simp)
  | clickUploadTab =>
    simp only [step, Option.some.injEq, Prod.mk.injEq] at hstep
    exact absurd hstep.2 (by simp)
  | clickDownloadTab =>
    simp only [step, Option.some.injEq, Prod.mk.injEq] at hstep
    exact absurd hstep.2 (by simp)
  | clickCopy =>
    simp only [step, Option.some.injEq, Prod.mk.injEq] at hstep
    exact absurd hstep.2 (by simp)
  | copyTimeout =>
    simp only [step, Option.some.injEq, Prod.mk.injEq] at hstep
    exact absurd hstep.2 (by simp)
  | editCode raw =>
    simp only [step, Option.some.injEq, Prod.mk.injEq] at hstep
    exact absurd hstep.2 (by simp)

/-- Concrete check for C6: the initial state satisfies the code-field
constraint and every lookup-submitting action from it submits 4 digits. -/
theorem download_code_constrained_witness :
    ((∀ c ∈ initState.downloadCode.data, c.isDigit = true) ∧
      initState.downloadCode.length ≤ 4) ∧
    (∀ (e : Event) (s' : AppState) (code : String),
      step demoUrl initState e = some (s', some code) →
      code.length = 4 ∧ ∀ c ∈ code.data, c.isDigit = true) :=
  download_code_constrained demoUrl initState Reachable.init

/-- Claim C7: no user action ever removes a registry entry: every entry
present before a step is present unchanged after it and the registry size
never decreases; in particular the Upload Another File button only clears the
displayed code and leaves everything else, the mapping included, intact. -/
theorem registry_no_eviction (mkUrl : File → String) (s : AppState) :
    (∀ (e : Event) (s' : AppState) (lk : Option String),
      step mkUrl s e = some (s', lk) →
      (∀ code sh, mapGet s.fileShares code = some sh →
        mapGet s'.fileShares code = some sh) ∧
      mapSize s.fileShares ≤ mapSize s'.fileShares) ∧
    step mkUrl s .clickUploadAnother = some ({ s with uploadedCode := "" }, none) :=
  ⟨fun e s' lk h => step_registry mkUrl s e s' lk h, rfl⟩

/-- Concrete check for C7: a drag-over step from the initial state preserves
every entry and the size, and Upload Another File only clears the code. -/
theorem registry_no_eviction_witness :
    ((∀ code sh, mapGet initState.fileShares code = some sh →
        mapGet ({ initState with isDragging := true } : AppState).fileShares code =
          some sh) ∧
      mapSize initState.fileShares ≤
        mapSize ({ initState with isDragging := true } : AppState).fileShares) ∧
    step demoUrl initState .clickUploadAnother =
      some ({ initState with uploadedCode := "" }, none) :=
  ⟨(registry_no_eviction demoUrl initState).1 .dragOver
      { initState with isDragging := true } none rfl,
    (registry_no_eviction demoUrl initState).2⟩

/-- Claim C8: handleDownload never changes the registry, hit or miss, and on
a miss the only change is the error message: the state is otherwise exactly
as before, the entered code included. -/
theorem download_lookup_pure (s : AppState) :
    (handleDownload s).1.fileShares = s.fileShares ∧
    (mapGet s.fileShares s.downloadCode = none →
      (handleDownload s).1 = { s with error := notFoundMsg } ∧
      (handleDownload s).1.downloadCode = s.downloadCode) := by
  refine ⟨handleDownload_fileShares s, fun h => ?_⟩
  rw [handleDownload_miss s h]
  exact ⟨rfl, rfl⟩

/-- Concrete check for C8: a miss on code 9999 in the empty registry changes
only the error message. -/
theorem download_lookup_pure_witness :
    (handleDownload { initState with downloadCode := "9999" }).1.fileShares =
      ({ initState with downloadCode := "9999" } : AppState).fileShares ∧
    ((handleDownload { initState with downloadCode := "9999" }).1 =
        { initState with downloadCode := "9999", error := notFoundMsg } ∧
      (handleDownload { initState with downloadCode := "9999" }).1.downloadCode =
        "9999") :=
  ⟨(download_lookup_pure { initState with downloadCode := "9999" }).1,
    (download_lookup_pure { initState with downloadCode := "9999" }).2 (by decide)⟩

theorem generateCode_some_of_eventually_free (shares : Registry) (rand : Nat → ℚ) :
    ∀ (d i : Nat), hasCode shares (natToString (draw rand (i + d))) = false →
      ∃ c, generateCode shares rand (d + 1) i = some c := by
  intro d
  induction d with
  | zero =>
    intro i hfree
    rw [Nat.add_zero] at hfree
    exact ⟨natToString (draw rand i), by
      simp only [generateCode, hfree, Bool.false_eq_true, if_false]⟩
  | succ d ih =>
    intro i hfree
    by_cases hc : hasCode shares (natToString (draw rand i)) = true
    · obtain ⟨c, hcg⟩ := ih (i + 1) (by
        rw [show i + 1 + d = i + (d + 1) by omega]
        exact hfree)
      exact ⟨c, by simp only [generateCode, if_pos hc]; exact hcg⟩
    · exact ⟨natToString (draw rand i), by
        simp only [generateCode, if_neg hc]⟩

/-- Claim C9: generateCode has no failure mode of its own: the loop returns
as soon as any draw of the random stream is free, so it terminates on every
stream that ever draws a free code; while some code in 1000 to 9999 is still
free an admissible stream terminating in one iteration exists; and with all
9000 codes occupied the loop returns for no amount of fuel, that is, it runs
forever. -/
theorem generateCode_termination (shares : Registry) :
    (∀ (rand : Nat → ℚ) (i d : Nat),
      hasCode shares (natToString (draw rand (i + d))) = false →
      ∃ c, generateCode shares rand (d + 1) i = some c) ∧
    ((∃ n, 1000 ≤ n ∧ n ≤ 9999 ∧ hasCode shares (natToString n) = false) →
      ∃ (rand : Nat → ℚ) (fuel i : Nat) (c : String),
        (∀ j, 0 ≤ rand j ∧ rand j < 1) ∧ generateCode shares rand fuel i = some c) ∧
    ((∀ n, 1000 ≤ n → n ≤ 9999 → hasCode shares (natToString n) = true) →
      ∀ (rand : Nat → ℚ), (∀ j, 0 ≤ rand j ∧ rand j < 1) →
        ∀ (fuel i : Nat), generateCode shares rand fuel i = none) := by
  refine ⟨fun rand i d hfree => generateCode_some_of_eventually_free shares rand d i hfree,
    ?_, ?_⟩
  · rintro ⟨n, h1, h2, hfree⟩
    refine ⟨fun _ => ((n : ℚ) - 1000) / 9000, 1, 0, natToString n, ?_,
      generateCode_some_of_free shares n h1 h2 hfree⟩
    intro j
    constructor
    · apply div_nonneg _ (by norm_num)
      have hc : (1000 : ℚ) ≤ (n : ℚ) := by exact_mod_cast h1
      linarith
    · rw [div_lt_one (by norm_num)]
      have hc : (n : ℚ) ≤ 9999 := by exact_mod_cast h2
      linarith
  · intro hfull rand hrand fuel i
    exact generateCode_none_of_full shares rand hfull hrand fuel i

/-- Concrete check for C9: on the empty registry, where code 1000 is free,
the all-zero stream terminates at its first draw, and some admissible random
stream makes the loop terminate with a code. -/
theorem generateCode_termination_witness :
    (∃ c, generateCode [] demoRand (0 + 1) 0 = some c) ∧
    ∃ (rand : Nat → ℚ) (fuel i : Nat) (c : String),
      (∀ j, 0 ≤ rand j ∧ rand j < 1) ∧ generateCode [] rand fuel i = some c :=
  ⟨(generateCode_termination []).1 demoRand 0 0 (by decide),
    (generateCode_termination []).2.1 ⟨1000, by norm_num, by norm_num, by decide⟩⟩

/-- Claim C10: a successful upload with a present file adds exactly one entry
under a fresh code, so the registry grows by exactly one and never overwrites,
every prior entry stays present unchanged, the published code is a key of the
updated registry mapping to the new entry, the error message is cleared, and
every other state field is untouched. -/
theorem upload_frame_property (mkUrl : File → String) (s : AppState) (f : File)
    (rand : Nat → ℚ) (fuel : Nat) (s' : AppState)
    (h : handleFileUpload mkUrl s (some f) rand fuel = some s') :
    ∃ code,
      s'.uploadedCode = code ∧
      hasCode s.fileShares code = false ∧
      mapGet s'.fileShares code = some ⟨code, f, mkUrl f⟩ ∧
      mapSize s'.fileShares = mapSize s.fileShares + 1 ∧
      (∀ c sh, mapGet s.fileShares c = some sh → mapGet s'.fileShares c = some sh) ∧
      s'.error = "" ∧ s'.downloadCode = s.downloadCode ∧ s'.view = s.view ∧
      s'.copied = s.copied ∧ s'.isDragging = s.isDragging := by
  have hreg := handleFileUpload_registry mkUrl s (some f) rand fuel s' h
  obtain ⟨code, hgen, hfresh, rfl⟩ := handleFileUpload_some mkUrl s f rand fuel s' h
  refine ⟨code, rfl, hfresh, mapGet_mapPut_self s.fileShares code _, ?_, hreg.1,
    rfl, rfl, rfl, rfl, rfl⟩
  show mapSize (mapPut s.fileShares code _) = mapSize s.fileShares + 1
  unfold mapSize
  exact mapPut_length_of_fresh s.fileShares code _ hfresh

/-- Concrete check for C10: uploading demoFile onto the empty registry adds
exactly the entry for code 1000 and changes nothing else. -/
theorem upload_frame_property_witness :
    ∃ code,
      demoUploaded.uploadedCode = code ∧
      hasCode initState.fileShares code = false ∧
      mapGet demoUploaded.fileShares code = some ⟨code, demoFile, demoUrl demoFile⟩ ∧
      mapSize demoUploaded.fileShares = mapSize initState.fileShares + 1 ∧
      (∀ c sh, mapGet initState.fileShares c = some sh →
        mapGet demoUploaded.fileShares c = some sh) ∧
      demoUploaded.error = "" ∧ demoUploaded.downloadCode = initState.downloadCode ∧
      demoUploaded.view = initState.view ∧ demoUploaded.copied = initState.copied ∧
      demoUploaded.isDragging = initState.isDragging :=
  upload_frame_property demoUrl initState demoFile demoRand 1 demoUploaded (by decide)

end FileShareApp
